import Mathlib

/-!
Shallow embedding of the numerical evaluation engine of
`modules/finances_core.py` over exact rational arithmetic.

Conventions:
- Python floats are modelled as `ℚ` (exact arithmetic); division by zero
  follows Lean's `x / 0 = 0` convention.  All rates reached by the solver
  in the proved theorems keep `1 + r ≠ 0`, where both semantics agree.
- `None`-returning Python functions are modelled with `Option`.
- Paths where the Python code would raise inside `numpy`
  (negative normal scale, percentile/max of an empty array) return `none`.
- `numpy`'s global pseudo-random generator is modelled as explicit state:
  a stream of standard-normal draws plus a consumption pointer.
-/

namespace FinCore

/-- The indexed discounting sum `sum cf_j / (1+r)^j` for `j = i, i+1, ...`:
the recursive form of `sum(cf / (1 + rate) ** i for i, cf in enumerate(...))`. -/
def discountSum (r : ℚ) : List ℚ → ℕ → ℚ
  | [], _ => 0
  | c :: rest, i => c / (1 + r) ^ i + discountSum r rest (i + 1)

/-- The indexed derivative sum `sum -j * cf_j / (1+r)^(j+1)` for `j = i, ...`:
the recursive form of `np.sum(-periods * cf / ((1.0 + r) ** (periods + 1)))`. -/
def derivSum (r : ℚ) : List ℚ → ℕ → ℚ
  | [], _ => 0
  | c :: rest, i => -(i : ℚ) * c / (1 + r) ^ (i + 1) + derivSum r rest (i + 1)

/-- Embeds `npv` (`finances_core.py`): `sum cf_i / (1+rate)^i` over the
enumerated cashflows. -/
def npv (rate : ℚ) (cashflows : List ℚ) : ℚ :=
  discountSum rate cashflows 0

/-- Embeds the inner `f` of `irr`: the same discounting sum used by `npv`. -/
def irrF (cf : List ℚ) (r : ℚ) : ℚ :=
  discountSum r cf 0

/-- Embeds the inner `fprime` of `irr`: `sum -i * cf_i / (1+r)^(i+1)`. -/
def irrFprime (cf : List ℚ) (r : ℚ) : ℚ :=
  derivSum r cf 0

/-- Embeds the Newton phase of `irr` (the `for _ in range(maxiter)` loop).
`some r` means the loop returned `r`; `none` means the loop fell through
to the bisection fallback (derivative too small, next iterate leaving the
domain, or iteration budget exhausted). -/
def newtonGo (cf : List ℚ) (tol : ℚ) : ℚ → ℕ → Option ℚ
  | _, 0 => none
  | r, n + 1 =>
    if |irrF cf r| < tol then some r
    else if |irrFprime cf r| < 1 / 10 ^ 12 then none
    else if r - irrF cf r / irrFprime cf r ≤ -(999999 / 1000000 : ℚ) then none
    else newtonGo cf tol (r - irrF cf r / irrFprime cf r) n

/-- Embeds `np.linspace a b n`: `n` evenly spaced points from `a` to `b`
inclusive (exact in `ℚ`). -/
def linspace (a b : ℚ) (n : ℕ) : List ℚ :=
  match n with
  | 0 => []
  | 1 => [a]
  | m + 2 =>
    (List.range (m + 2)).map
      (fun i : ℕ => a + (i : ℚ) * ((b - a) / ((m : ℚ) + 1)))

/-- Embeds the fallback scan grid of `irr`:
`np.concatenate([np.linspace(-0.9999, -0.1, 200), np.linspace(-0.05, 5.0, 2000)])`. -/
def irrGrid : List ℚ :=
  linspace (-(9999 / 10000)) (-(1 / 10)) 200 ++ linspace (-(1 / 20)) 5 2000

/-- Embeds the scan loop of `irr`'s fallback: walking consecutive grid
points, returning (`.error`) the first grid rate whose value is exactly
zero, otherwise collecting (`.ok`) every adjacent sign-change bracket.
The zero test is applied to indices `0 .. len-2`, exactly as the Python
loop `for i in range(len(vals) - 1)` does. -/
def scan (f : ℚ → ℚ) : List ℚ → Except ℚ (List (ℚ × ℚ))
  | a :: b :: rest =>
    if f a = 0 then .error a
    else
      match scan f (b :: rest) with
      | .error z => .error z
      | .ok brs => .ok (if f a * f b < 0 then (a, b) :: brs else brs)
  | _ => .ok []

/-- Embeds the bisection loop of `irr`'s fallback (fuel = remaining
iterations of `for _ in range(100)`; `fa` is the tracked left value).
When fuel runs out the final midpoint is returned. -/
def bisect (f : ℚ → ℚ) (tol : ℚ) : ℕ → ℚ → ℚ → ℚ → ℚ
  | 0, a, b, _ => (a + b) / 2
  | n + 1, a, b, fa =>
    if |f ((a + b) / 2)| < tol then (a + b) / 2
    else if fa * f ((a + b) / 2) < 0 then bisect f tol n a ((a + b) / 2) fa
    else bisect f tol n ((a + b) / 2) b (f ((a + b) / 2))

/-- Embeds `irr` (`finances_core.py`): Newton phase, then the grid scan
with zero short-circuit, then bisection of the first bracket.  `none`
models Python's `return None` ("no rate of return found"). -/
def irr (cf : List ℚ) (guess : ℚ := 1 / 10) (tol : ℚ := 1 / 10 ^ 8)
    (maxiter : ℕ := 200) : Option ℚ :=
  match newtonGo cf tol guess maxiter with
  | some r => some r
  | none =>
    match scan (irrF cf) irrGrid with
    | .error z => some z
    | .ok [] => none
    | .ok ((a, b) :: _) => some (bisect (irrF cf) tol 100 a b (irrF cf a))

/-- Embeds `benefit_cost_ratio` (`finances_core.py`): present value of the
positive flows over present value of the negated negative flows, `none`
when the cost denominator is numerically zero. -/
def benefit_cost (cashflows : List ℚ) (rate : ℚ) : Option ℚ :=
  let benefits := cashflows.map (fun cf => if cf > 0 then cf else 0)
  let costs := cashflows.map (fun cf => if cf < 0 then -cf else 0)
  let pv_b := npv rate benefits
  let pv_c := npv rate costs
  if |pv_c| < 1 / 10 ^ 12 then none else some (pv_b / pv_c)

/-- Embeds `npv_profile`: the list of `(tmar, van)` pairs on a rate grid. -/
def npv_profile (cashflows : List ℚ) (tmar_grid : List ℚ) : List (ℚ × ℚ) :=
  tmar_grid.map (fun t => (t, npv t cashflows))

/-- Model of `numpy`'s global random generator: a stream of standard
normal draws together with a pointer to the next unconsumed draw. -/
structure RngState where
  stream : ℕ → ℚ
  ptr : ℕ

/-- Modelled from the spec: the seeded pseudo-random source behind
`np.random.seed(seed)` (numpy's generator internals are not part of this
repository).  Only the functional dependence of the draw stream on the
seed is modelled; the concrete values stand in for standard-normal
draws. -/
def normalsFromSeed (seed : ℤ) : ℕ → ℚ :=
  fun n => ((seed + n) % 97 : ℤ) / 10

/-- Embeds one call `np.random.normal(1.0, sigma, size=k)` against the
explicit generator state: `none` models numpy's `ValueError` on a
negative scale; otherwise `k` draws `1 + sigma * z` are consumed. -/
def drawNormals (sigma : ℚ) (k : ℕ) (st : RngState) :
    Option (List ℚ × RngState) :=
  if sigma < 0 then none
  else
    some ((List.range k).map (fun i => 1 + sigma * st.stream (st.ptr + i)),
      { stream := st.stream, ptr := st.ptr + k })

/-- Embeds the trial loop of `monte_carlo_npv`: for each trial, shocks are
all ones except that, when the sequence has length greater than 1,
positions `1..N` are replaced by normal draws; the trial's sample is the
`npv` of the elementwise product. -/
def mcLoop (cf : List ℚ) (rate sigma : ℚ) :
    ℕ → RngState → Option (List ℚ × RngState)
  | 0, st => some ([], st)
  | n + 1, st =>
    let step : Option (List ℚ × RngState) :=
      if cf.length > 1 then
        match drawNormals sigma (cf.length - 1) st with
        | none => none
        | some (zs, st') => some ((1 : ℚ) :: zs, st')
      else some (List.replicate cf.length 1, st)
    match step with
    | none => none
    | some (shocks, st') =>
      let scenario := List.zipWith (· * ·) cf shocks
      match mcLoop cf rate sigma n st' with
      | none => none
      | some (rest, st'') => some (npv rate scenario :: rest, st'')

/-- Embeds `np.percentile(l, q)` (linear interpolation, the numpy
default): virtual index `(n-1) * q / 100`, linearly interpolated between
the two neighbouring order statistics.  Total on nonempty lists; callers
gate the empty case. -/
def pct (l : List ℚ) (q : ℚ) : ℚ :=
  let s := List.insertionSort (· ≤ ·) l
  let n := l.length
  let h : ℚ := ((n : ℚ) - 1) * q / 100
  let lo : ℕ := (⌊h⌋).toNat
  let x := s.getD (min lo (n - 1)) 0
  let y := s.getD (min (lo + 1) (n - 1)) 0
  x + (h - (⌊h⌋ : ℚ)) * (y - x)

/-- The Risk Distribution Summary returned by `monte_carlo_npv`.  The
Python dict's `"std"` entry is the square root of the `var` field stored
here (the population variance); the square root itself is irrational and
no claim refers to its value. -/
structure MCResult where
  n_sim : ℤ
  mean : ℚ
  var : ℚ
  p5 : ℚ
  p25 : ℚ
  p50 : ℚ
  p75 : ℚ
  p95 : ℚ
  samples : List ℚ
deriving Repr

/-- The generator state a `monte_carlo_npv` call actually uses: a
supplied seed reseeds the global generator (`np.random.seed(seed)`),
otherwise the incoming state is consumed as-is. -/
def mcSeedState (seed : Option ℤ) (st : RngState) : RngState :=
  match seed with
  | some s => { stream := normalsFromSeed s, ptr := 0 }
  | none => st

/-- Embeds `monte_carlo_npv` (`finances_core.py`) against an explicit
generator state.  `none` models the numpy errors the Python code does
not guard against (negative sigma used on a multi-period sequence, or a
percentile of an empty sample array when `n_sim <= 0`).  The dict's
`mean` is written out inline inside `var` (the Python `sims.std()`
squares deviations about the same `sims.mean()`). -/
def monte_carlo_npv (cashflows : List ℚ) (rate : ℚ) (n_sim : ℤ := 2000)
    (sigma : ℚ := 15 / 100) (seed : Option ℤ := none) (st : RngState) :
    Option (MCResult × RngState) :=
  match mcLoop cashflows rate sigma n_sim.toNat (mcSeedState seed st) with
  | none => none
  | some (sims, st1) =>
    if sims.isEmpty then none
    else
      some ({ n_sim := n_sim
              mean := sims.sum / (sims.length : ℚ)
              var := (sims.map
                  (fun x => (x - sims.sum / (sims.length : ℚ)) ^ 2)).sum
                / (sims.length : ℚ)
              p5 := pct sims 5
              p25 := pct sims 25
              p50 := pct sims 50
              p75 := pct sims 75
              p95 := pct sims 95
              samples := sims }, st1)

/-- The Evaluation Report built by `evaluate_project`. -/
structure ProjectReport where
  cashflows : List ℚ
  tmar : ℚ
  van : ℚ
  tir : Option ℚ
  b_c : Option ℚ
  profile : List (ℚ × ℚ)
  montecarlo : Option MCResult
deriving Repr

/-- Embeds `evaluate_project` (`finances_core.py`): net value, rate of
return (default-argument `irr` call), benefit/cost ratio, the 41-point
value profile on `[max(0, tmar-0.2), tmar+0.2]`, and the optional risk
summary.  `none` only when the requested Monte Carlo step fails. -/
def evaluate_project (cashflows : List ℚ) (tmar : ℚ)
    (montecarlo : Bool := false) (mc_nsim : ℤ := 1000)
    (mc_sigma : ℚ := 15 / 100) (mc_seed : Option ℤ := none)
    (st : RngState) : Option (ProjectReport × RngState) :=
  let van_val := npv tmar cashflows
  let tir_val := irr cashflows
  let bc_val := benefit_cost cashflows tmar
  let tgrid := linspace (max 0 (tmar - 1 / 5)) (tmar + 1 / 5) 41
  let base : ProjectReport :=
    { cashflows := cashflows, tmar := tmar, van := van_val, tir := tir_val
      b_c := bc_val, profile := npv_profile cashflows tgrid, montecarlo := none }
  if montecarlo then
    match monte_carlo_npv cashflows tmar mc_nsim mc_sigma mc_seed st with
    | none => none
    | some (mc, st') => some ({ base with montecarlo := some mc }, st')
  else some (base, st)

/-- Input entry of `compare_projects`: a project name and its three
metrics, any of which may be absent (`None` or a missing key). -/
structure ProjInput where
  name : Option String
  van : Option ℚ
  tir : Option ℚ
  b_c : Option ℚ

instance : Inhabited ProjInput := ⟨⟨none, none, none, none⟩⟩

/-- Embeds `p["metrics"].get(k, 0) or 0`: an absent metric counts as 0. -/
def orZero : Option ℚ → ℚ
  | none => 0
  | some x => x

/-- `arr.max()` on a nonempty list (callers gate the empty case, where
numpy raises `ValueError`). -/
def maxOfList : List ℚ → ℚ
  | [] => 0
  | x :: xs => xs.foldl max x

/-- `arr.min()` on a nonempty list. -/
def minOfList : List ℚ → ℚ
  | [] => 0
  | x :: xs => xs.foldl min x

/-- Embeds `safe_normalize` (inner function of `compare_projects`):
min-max normalization, all zeros when the column is constant. -/
def safe_normalize (arr : List ℚ) : List ℚ :=
  let mx := maxOfList arr
  let mn := minOfList arr
  if mx = mn then arr.map (fun _ => 0)
  else arr.map (fun x => (x - mn) / (mx - mn))

/-- Output entry of `compare_projects`. -/
structure ScoredEntry where
  name : String
  van : ℚ
  tir : ℚ
  b_c : ℚ
  score : ℚ
deriving DecidableEq, Repr

instance : Inhabited ScoredEntry := ⟨⟨"", 0, 0, 0, 0⟩⟩

/-- The scored entries of `compare_projects`, in input order (the state of
`scores` just before the final `sort`). -/
def scoredEntries (P : List ProjInput) (w : ℚ × ℚ × ℚ) : List ScoredEntry :=
  let vans := P.map (fun p => orZero p.van)
  let tirs := P.map (fun p => orZero p.tir)
  let bcs := P.map (fun p => orZero p.b_c)
  let nv := safe_normalize vans
  let nt := safe_normalize tirs
  let nb := safe_normalize bcs
  (List.range P.length).map (fun i =>
    { name := ((P.getD i default).name).getD ("proj_" ++ toString i)
      van := vans.getD i 0
      tir := tirs.getD i 0
      b_c := bcs.getD i 0
      score := w.1 * nv.getD i 0 + w.2.1 * nt.getD i 0 + w.2.2 * nb.getD i 0 })

/-- Descending-by-score comparison used to embed
`scores.sort(key=lambda x: x["score"], reverse=True)` (a stable sort). -/
def scoreGE (a b : ScoredEntry) : Prop := b.score ≤ a.score

instance : DecidableRel scoreGE := fun a b => inferInstanceAs (Decidable (b.score ≤ a.score))

instance : IsTotal ScoredEntry scoreGE := ⟨fun a b => le_total b.score a.score⟩

instance : IsTrans ScoredEntry scoreGE := ⟨fun _ _ _ h h' => le_trans h' h⟩

/-- Embeds `compare_projects` (`finances_core.py`).  `none` models the
`ValueError` numpy raises on `np.array([]).max()` when the project list
is empty; Python's stable descending `list.sort` is embedded as a stable
insertion sort under `scoreGE`. -/
def compare_projects (projects : List ProjInput) (w : ℚ × ℚ × ℚ) :
    Option (List ScoredEntry) :=
  match projects with
  | [] => none
  | _ => some (List.insertionSort scoreGE (scoredEntries projects w))

/-- Spec-side description of the scan's zero short-circuit: the first
grid rate (among indices `0 .. len-2`) whose sampled value is exactly
zero. -/
def firstZeroScan (f : ℚ → ℚ) (xs : List ℚ) : Option ℚ :=
  xs.dropLast.find? (fun x => decide (f x = 0))

/-- Spec-side description of "the first (lowest-rate) bracketing pair":
the first adjacent pair of grid points whose values have opposite sign. -/
def firstBracket (f : ℚ → ℚ) (xs : List ℚ) : Option (ℚ × ℚ) :=
  (xs.zip xs.tail).find? (fun p => decide (f p.1 * f p.2 < 0))

/-! ### Basic facts about the discounting sums -/

theorem discountSum_nonneg (r : ℚ) (hr : 0 < 1 + r) :
    ∀ l : List ℚ, (∀ x ∈ l, 0 ≤ x) → ∀ i : ℕ, 0 ≤ discountSum r l i := by
  intro l
  induction l with
  | nil => intro _ i; simp [discountSum]
  | cons c rest ih =>
    intro h i
    simp only [discountSum]
    have hc : 0 ≤ c := h c (by simp)
    have hrec := ih (fun x hx => h x (by simp [hx])) (i + 1)
    have hpow : 0 < (1 + r) ^ i := pow_pos hr i
    have hdiv : 0 ≤ c / (1 + r) ^ i := div_nonneg hc hpow.le
    linarith

theorem discountSum_nonpos (r : ℚ) (hr : 0 < 1 + r) :
    ∀ l : List ℚ, (∀ x ∈ l, x ≤ 0) → ∀ i : ℕ, discountSum r l i ≤ 0 := by
  intro l
  induction l with
  | nil => intro _ i; simp [discountSum]
  | cons c rest ih =>
    intro h i
    simp only [discountSum]
    have hc : c ≤ 0 := h c (by simp)
    have hrec := ih (fun x hx => h x (by simp [hx])) (i + 1)
    have hpow : 0 < (1 + r) ^ i := pow_pos hr i
    have hdiv : c / (1 + r) ^ i ≤ 0 := div_nonpos_of_nonpos_of_nonneg hc hpow.le
    linarith

/-- For an all-nonnegative cashflow sequence and a rate inside the
discounting domain, the solver's objective is at least the head term. -/
theorem irrF_ge_head (cf : List ℚ) (r : ℚ) (hr : -1 < r)
    (hpos : ∀ x ∈ cf, 0 ≤ x) : cf.headD 0 ≤ irrF cf r := by
  have h1r : 0 < 1 + r := by linarith
  cases cf with
  | nil => simp [irrF, discountSum]
  | cons c rest =>
    simp only [irrF, discountSum, List.headD_cons, pow_zero, div_one]
    have hrec := discountSum_nonneg r h1r rest
      (fun x hx => hpos x (by simp [hx])) 1
    linarith

/-- Dual bound for an all-nonpositive cashflow sequence. -/
theorem irrF_le_head (cf : List ℚ) (r : ℚ) (hr : -1 < r)
    (hneg : ∀ x ∈ cf, x ≤ 0) : irrF cf r ≤ cf.headD 0 := by
  have h1r : 0 < 1 + r := by linarith
  cases cf with
  | nil => simp [irrF, discountSum]
  | cons c rest =>
    simp only [irrF, discountSum, List.headD_cons, pow_zero, div_one]
    have hrec := discountSum_nonpos r h1r rest
      (fun x hx => hneg x (by simp [hx])) 1
    linarith

/-! ### C1 -/

/-- C1: the engine does not reject invalid configurations at the boundary.
With an empty cashflow sequence, `npv` computes 0 and `irr` terminates on
the first Newton step returning the initial guess (`|f| = 0 < tol`); with
a noise standard deviation of zero (a non-positive sigma),
`monte_carlo_npv` computes a full Risk Distribution Summary.  No
precondition failure occurs at any of these boundaries. -/
theorem engine_computes_through_invalid_configuration :
    npv (1 / 10) [] = 0 ∧
    irr [] (1 / 10) (1 / 10 ^ 8) 200 = some (1 / 10) ∧
    (monte_carlo_npv [(-100 : ℚ), 50] 0 10 0 (some 1)
        { stream := fun _ => 0, ptr := 0 }).isSome = true := by
  refine ⟨rfl, by with_unfolding_all rfl, by with_unfolding_all rfl⟩

/-! ### C5 -/

/-- C5 counterexample: on the cashflows `[-5000, 5000]` with the default
guess, tolerance and iteration budget, `irr` does not return exactly 0.
In exact arithmetic the Newton iterates are `r ← -r²`
(`0.1, -0.01, -0.0001, -1e-8`), and the loop stops at `-1e-16`, whose
objective value `5000e-16/(1-1e-16)` is below the `1e-8` tolerance. -/
theorem irr_single_payoff_not_exactly_zero :
    irr [-5000, 5000] (1 / 10) (1 / 10 ^ 8) 200 ≠ some 0 := by
  have h : irr [-5000, 5000] (1 / 10) (1 / 10 ^ 8) 200
      = some (-(1 / 10 ^ 16)) := by with_unfolding_all rfl
  rw [h]
  intro hc
  have h0 : (-(1 / 10 ^ 16) : ℚ) = 0 := Option.some.inj hc
  norm_num at h0

/-- C5 (amended): on `[-5000, 5000]` the net value at rate 0.10 is
`-5000/11 ≈ -454.55` (within half a cent of the quoted figure), and `irr`
with the default guess returns `-1e-16`, a rate whose absolute value is
below the solver's own `1e-8` tolerance — approximately, but not exactly,
zero. -/
theorem scenario_b_npv_and_irr :
    npv (1 / 10) [-5000, 5000] = -5000 / 11 ∧
    |npv (1 / 10) [-5000, 5000] - (-(45455 / 100))| < 1 / 100 ∧
    irr [-5000, 5000] (1 / 10) (1 / 10 ^ 8) 200 = some (-(1 / 10 ^ 16)) ∧
    |(-(1 / 10 ^ 16) : ℚ)| < 1 / 10 ^ 8 := by
  have h1 : npv (1 / 10) [-5000, 5000] = -5000 / 11 := by
    with_unfolding_all rfl
  refine ⟨h1, ?_, by with_unfolding_all rfl, ?_⟩
  · rw [h1, abs_lt]
    constructor <;> norm_num
  · rw [abs_lt]
    constructor <;> norm_num

/-! ### The Newton phase -/

/-- If the objective keeps magnitude at least `tol` at every rate above
the `-0.999999` cutoff, the Newton phase never returns and falls through
to the bisection fallback. -/
theorem newtonGo_eq_none (cf : List ℚ) (tol : ℚ)
    (H : ∀ r : ℚ, -(999999 / 1000000 : ℚ) < r → tol ≤ |irrF cf r|) :
    ∀ (n : ℕ) (r : ℚ), -(999999 / 1000000 : ℚ) < r →
      newtonGo cf tol r n = none := by
  intro n
  induction n with
  | zero => intro r _; rfl
  | succ n ih =>
    intro r hr
    have hf : ¬ |irrF cf r| < tol := not_lt.mpr (H r hr)
    rw [newtonGo, if_neg hf]
    by_cases hd : |irrFprime cf r| < 1 / 10 ^ 12
    · rw [if_pos hd]
    · rw [if_neg hd]
      by_cases hrn : r - irrF cf r / irrFprime cf r ≤ -(999999 / 1000000 : ℚ)
      · rw [if_pos hrn]
      · rw [if_neg hrn]
        exact ih _ (not_le.mp hrn)

/-- Every rate the Newton phase can return lies above the `-0.999999`
cutoff, provided the initial guess does: iterates at or below the cutoff
are rejected before they are ever used. -/
theorem newtonGo_some_gt (cf : List ℚ) (tol : ℚ) :
    ∀ (n : ℕ) (r x : ℚ), -(999999 / 1000000 : ℚ) < r →
      newtonGo cf tol r n = some x → -(999999 / 1000000 : ℚ) < x := by
  intro n
  induction n with
  | zero => intro r x _ h; exact absurd h (by simp [newtonGo])
  | succ n ih =>
    intro r x hr h
    rw [newtonGo] at h
    by_cases hf : |irrF cf r| < tol
    · rw [if_pos hf] at h
      exact Option.some.inj h ▸ hr
    · rw [if_neg hf] at h
      by_cases hd : |irrFprime cf r| < 1 / 10 ^ 12
      · rw [if_pos hd] at h; exact absurd h (by simp)
      · rw [if_neg hd] at h
        by_cases hrn : r - irrF cf r / irrFprime cf r ≤ -(999999 / 1000000 : ℚ)
        · rw [if_pos hrn] at h; exact absurd h (by simp)
        · rw [if_neg hrn] at h
          exact ih _ x (not_le.mp hrn) h

/-! ### The scan grid -/

/-- Every point of `np.linspace a b n` lies in `[a, b]` (for `a ≤ b`). -/
theorem linspace_mem_bounds (a b : ℚ) (n : ℕ) (hab : a ≤ b) :
    ∀ x ∈ linspace a b n, a ≤ x ∧ x ≤ b := by
  match n with
  | 0 => intro x hx; simp [linspace] at hx
  | 1 =>
    intro x hx
    rw [linspace, List.mem_singleton] at hx
    subst hx
    exact ⟨le_rfl, hab⟩
  | m + 2 =>
    intro x hx
    rw [linspace] at hx
    obtain ⟨i, hi, rfl⟩ := List.mem_map.mp hx
    rw [List.mem_range] at hi
    have hm0 : (0 : ℚ) ≤ (m : ℚ) := Nat.cast_nonneg m
    have hm1 : (0 : ℚ) < (m : ℚ) + 1 := by linarith
    have hstep : 0 ≤ (b - a) / ((m : ℚ) + 1) :=
      div_nonneg (by linarith) hm1.le
    have hi' : (i : ℚ) ≤ (m : ℚ) + 1 := by
      have hn : i ≤ m + 1 := Nat.lt_succ_iff.mp hi
      exact_mod_cast hn
    constructor
    · have hnn : 0 ≤ (i : ℚ) * ((b - a) / ((m : ℚ) + 1)) :=
        mul_nonneg (Nat.cast_nonneg i) hstep
      linarith
    · have h1 : (i : ℚ) * ((b - a) / ((m : ℚ) + 1))
          ≤ ((m : ℚ) + 1) * ((b - a) / ((m : ℚ) + 1)) :=
        mul_le_mul_of_nonneg_right hi' hstep
      have h2 : ((m : ℚ) + 1) * ((b - a) / ((m : ℚ) + 1)) = b - a := by
        rw [mul_div_assoc']
        exact mul_div_cancel_left₀ _ (ne_of_gt hm1)
      linarith

/-- Every point of the fallback scan grid lies in `[-0.9999, 5]`. -/
theorem irrGrid_mem_bounds :
    ∀ x ∈ irrGrid, -(9999 / 10000 : ℚ) ≤ x ∧ x ≤ 5 := by
  intro x hx
  rw [irrGrid, List.mem_append] at hx
  rcases hx with h | h
  · obtain ⟨h1, h2⟩ := linspace_mem_bounds _ _ _ (by norm_num) x h
    exact ⟨h1, le_trans h2 (by norm_num)⟩
  · obtain ⟨h1, h2⟩ := linspace_mem_bounds _ _ _ (by norm_num) x h
    exact ⟨le_trans (by norm_num) h1, h2⟩

/-- Every grid point is strictly inside the discounting domain. -/
theorem irrGrid_gt_neg_one : ∀ x ∈ irrGrid, (-1 : ℚ) < x := by
  intro x hx
  have := (irrGrid_mem_bounds x hx).1
  linarith

/-! ### The scan loop -/

/-- If no sampled value is zero (on indices `0 .. len-2`) and no adjacent
pair changes sign, the scan collects nothing. -/
theorem scan_eq_ok_nil (f : ℚ → ℚ) :
    ∀ xs : List ℚ, (∀ x ∈ xs, f x ≠ 0) →
      List.Chain' (fun a b => ¬(f a * f b < 0)) xs →
      scan f xs = Except.ok [] := by
  intro xs
  induction xs with
  | nil => intro _ _; rfl
  | cons a tail ih =>
    intro hnz hch
    cases tail with
    | nil => rfl
    | cons b rest =>
      obtain ⟨hab, hch'⟩ := List.chain'_cons.mp hch
      have ha : f a ≠ 0 := hnz a (by simp)
      rw [scan, if_neg ha,
        ih (fun x hx => hnz x (by simp [hx])) hch']
      simp [hab]

/-- A zero short-circuit returns a member of the grid. -/
theorem scan_error_mem (f : ℚ → ℚ) :
    ∀ (xs : List ℚ) (z : ℚ), scan f xs = Except.error z → z ∈ xs := by
  intro xs
  induction xs with
  | nil => intro z h; exact absurd h (by simp [scan])
  | cons a tail ih =>
    intro z h
    cases tail with
    | nil => exact absurd h (by simp [scan])
    | cons b rest =>
      rw [scan] at h
      by_cases hfa : f a = 0
      · rw [if_pos hfa] at h
        have : a = z := by simpa using h
        simp [this]
      · rw [if_neg hfa] at h
        cases hsc : scan f (b :: rest) with
        | error z' =>
          rw [hsc] at h
          have : z' = z := by simpa using h
          exact List.mem_cons_of_mem a (this ▸ ih z' hsc)
        | ok brs =>
          rw [hsc] at h
          exact absurd h (by simp)

/-- Every collected bracket consists of two grid members. -/
theorem scan_ok_mem (f : ℚ → ℚ) :
    ∀ (xs : List ℚ) (brs : List (ℚ × ℚ)), scan f xs = Except.ok brs →
      ∀ p ∈ brs, p.1 ∈ xs ∧ p.2 ∈ xs := by
  intro xs
  induction xs with
  | nil =>
    intro brs h p hp
    simp only [scan] at h
    obtain rfl : ([] : List (ℚ × ℚ)) = brs := by simpa using h
    simp at hp
  | cons a tail ih =>
    intro brs h p hp
    cases tail with
    | nil =>
      simp only [scan] at h
      obtain rfl : ([] : List (ℚ × ℚ)) = brs := by simpa using h
      simp at hp
    | cons b rest =>
      rw [scan] at h
      by_cases hfa : f a = 0
      · rw [if_pos hfa] at h; exact absurd h (by simp)
      · rw [if_neg hfa] at h
        cases hsc : scan f (b :: rest) with
        | error z' => rw [hsc] at h; exact absurd h (by simp)
        | ok brs' =>
          rw [hsc] at h
          have hbrs : (if f a * f b < 0 then (a, b) :: brs' else brs') = brs := by
            simpa using h
          by_cases hsg : f a * f b < 0
          · rw [if_pos hsg] at hbrs
            subst hbrs
            rcases List.mem_cons.mp hp with hp1 | hp2
            · constructor <;> simp [hp1]
            · have hmem := ih brs' hsc p hp2
              exact ⟨List.mem_cons_of_mem a hmem.1,
                List.mem_cons_of_mem a hmem.2⟩
          · rw [if_neg hsg] at hbrs
            subst hbrs
            have hmem := ih brs' hsc p hp
            exact ⟨List.mem_cons_of_mem a hmem.1,
              List.mem_cons_of_mem a hmem.2⟩

/-! ### The bisection loop -/

/-- Bisection never leaves the interval spanned by its starting bracket:
every midpoint is a convex combination of points of `[lo, hi]`. -/
theorem bisect_mem_range (f : ℚ → ℚ) (tol lo hi : ℚ) :
    ∀ (n : ℕ) (a b fa : ℚ), lo ≤ a → a ≤ hi → lo ≤ b → b ≤ hi →
      lo ≤ bisect f tol n a b fa ∧ bisect f tol n a b fa ≤ hi := by
  intro n
  induction n with
  | zero =>
    intro a b fa ha1 ha2 hb1 hb2
    rw [bisect]
    constructor <;> linarith
  | succ n ih =>
    intro a b fa ha1 ha2 hb1 hb2
    have hm1 : lo ≤ (a + b) / 2 := by linarith
    have hm2 : (a + b) / 2 ≤ hi := by linarith
    rw [bisect]
    split
    · exact ⟨hm1, hm2⟩
    · split
      · exact ih a ((a + b) / 2) fa ha1 ha2 hm1 hm2
      · exact ih ((a + b) / 2) b _ hm1 hm2 hb1 hb2

/-! ### Single-period sequences -/

theorem chain'_of_mem {α : Type} (R : α → α → Prop) (P : α → Prop)
    (h : ∀ a b, P a → P b → R a b) :
    ∀ xs : List α, (∀ x ∈ xs, P x) → List.Chain' R xs := by
  intro xs
  induction xs with
  | nil => intro _; simp
  | cons a t ih =>
    intro hP
    cases t with
    | nil => simp
    | cons b r =>
      rw [List.chain'_cons]
      exact ⟨h a b (hP a (by simp)) (hP b (by simp)),
        ih (fun x hx => hP x (List.mem_cons_of_mem a hx))⟩

theorem npv_singleton (rate c : ℚ) : npv rate [c] = c := by
  simp [npv, discountSum]

theorem irrF_singleton (c r : ℚ) : irrF [c] r = c := by
  simp [irrF, discountSum]

/-- On a one-period sequence with `tol ≤ |outlay|`, the Newton phase
breaks on its zero derivative and the scan of the constant objective
finds neither a zero nor a sign change, so `irr` reports absence. -/
theorem irr_singleton_eq_none (c guess tol : ℚ) (maxiter : ℕ)
    (htol : 0 < tol) (hc : tol ≤ |c|)
    (hg : -(999999 / 1000000 : ℚ) < guess) :
    irr [c] guess tol maxiter = none := by
  have hc0 : c ≠ 0 := by
    intro h
    rw [h, abs_zero] at hc
    linarith
  have hn : newtonGo [c] tol guess maxiter = none :=
    newtonGo_eq_none [c] tol
      (fun r _ => by rw [irrF_singleton]; exact hc) maxiter guess hg
  have hs : scan (irrF [c]) irrGrid = Except.ok [] := by
    apply scan_eq_ok_nil
    · intro x _
      rw [irrF_singleton]
      exact hc0
    · apply chain'_of_mem _ (fun _ => True) _ irrGrid (fun _ _ => trivial)
      intro a b _ _
      rw [irrF_singleton, irrF_singleton]
      intro hlt
      exact absurd hlt (not_lt.mpr (mul_self_nonneg c))
  rw [irr, hn, hs]

theorem benefit_cost_singleton_pos (c rate : ℚ) (hc : 0 < c) :
    benefit_cost [c] rate = none := by
  rw [benefit_cost]
  simp only [List.map_singleton, if_pos hc, if_neg (not_lt.mpr hc.le)]
  rw [npv_singleton, if_pos]
  rw [abs_zero]
  norm_num

theorem benefit_cost_singleton_neg (c rate : ℚ) (hc : c < 0)
    (hbig : 1 / 10 ^ 8 ≤ |c|) : benefit_cost [c] rate = some 0 := by
  rw [benefit_cost]
  simp only [List.map_singleton, if_pos hc, if_neg (not_lt.mpr hc.le)]
  rw [npv_singleton, npv_singleton, if_neg]
  · rw [zero_div]
  · rw [not_lt, abs_neg]
    exact le_trans (by norm_num) hbig

/-- Core computation shared by the C2 theorem and its counterexample:
`evaluate_project` on a one-period sequence whose outlay clears the
solver tolerance. -/
theorem evaluate_project_singleton_core (c tmar : ℚ) (n : ℤ) (σ : ℚ)
    (st : RngState) (hc : 1 / 10 ^ 8 ≤ |c|) :
    ∃ rep : ProjectReport,
      evaluate_project [c] tmar false n σ none st = some (rep, st) ∧
      rep.van = c ∧ rep.tir = none ∧
      (0 < c → rep.b_c = none) ∧ (c < 0 → rep.b_c = some 0) := by
  refine ⟨_, rfl, ?_, ?_, ?_, ?_⟩
  · exact npv_singleton tmar c
  · exact irr_singleton_eq_none c (1 / 10) (1 / 10 ^ 8) 200
      (by norm_num) hc (by norm_num)
  · intro hpos
    exact benefit_cost_singleton_pos c tmar hpos
  · intro hneg
    exact benefit_cost_singleton_neg c tmar hneg hc

/-! ### C2 -/

/-- C2 counterexample: for the one-period sequence `[-5000]` at rate
0.10, `evaluate_project` reports a benefit/cost ratio of `some 0` — the
positive flows have present value 0 and the costs have present value
5000, so the ratio is defined and equals 0 — not the absent marker the
claim requires for every single-period sequence. -/
theorem evaluate_project_singleton_bc_not_absent :
    Option.map (fun p => p.1.b_c)
      (evaluate_project [-5000] (1 / 10) false 1000 (15 / 100) none
        { stream := fun _ => 0, ptr := 0 }) = some (some 0) ∧
    Option.map (fun p => p.1.b_c)
      (evaluate_project [-5000] (1 / 10) false 1000 (15 / 100) none
        { stream := fun _ => 0, ptr := 0 }) ≠ some none := by
  obtain ⟨rep, heq, _, _, _, hbc⟩ :=
    evaluate_project_singleton_core (-5000) (1 / 10) 1000 (15 / 100)
      { stream := fun _ => 0, ptr := 0 }
      (by rw [abs_of_neg (by norm_num : (-5000 : ℚ) < 0)]; norm_num)
  rw [heq]
  have h0 : rep.b_c = some 0 := hbc (by norm_num)
  simp [h0]

/-- C2 (amended): for every one-period cashflow sequence `[c]` whose
outlay clears the solver tolerance (`1e-8 ≤ |c|`) and every rate, the
report's net value equals the outlay and its rate of return is the
absent marker; the benefit/cost ratio is the absent marker when the
outlay is positive (costs have present value 0) but equals `some 0` when
the outlay is negative (benefits have present value 0 over nonzero
costs). -/
theorem evaluate_project_single_period (c tmar : ℚ) (n : ℤ) (σ : ℚ)
    (st : RngState) (hc : 1 / 10 ^ 8 ≤ |c|) :
    ∃ rep : ProjectReport,
      evaluate_project [c] tmar false n σ none st = some (rep, st) ∧
      rep.van = c ∧ rep.tir = none ∧
      (0 < c → rep.b_c = none) ∧ (c < 0 → rep.b_c = some 0) :=
  evaluate_project_singleton_core c tmar n σ st hc

/-- C2 witness: the single-period theorem applied to the outlay 300 at
rate 0.10. -/
theorem evaluate_project_single_period_witness :
    ∃ rep : ProjectReport,
      evaluate_project [300] (1 / 10) false 1000 (15 / 100) none
          { stream := fun _ => 0, ptr := 0 }
        = some (rep, { stream := fun _ => 0, ptr := 0 }) ∧
      rep.van = 300 ∧ rep.tir = none ∧
      (0 < (300 : ℚ) → rep.b_c = none) ∧ ((300 : ℚ) < 0 → rep.b_c = some 0) :=
  evaluate_project_single_period 300 (1 / 10) 1000 (15 / 100)
    { stream := fun _ => 0, ptr := 0 }
    (by rw [abs_of_pos (by norm_num : (0 : ℚ) < 300)]; norm_num)

/-! ### The scan loop versus its first-zero / first-bracket description -/

/-- The zero short-circuit returns exactly the first grid rate (among
indices `0 .. len-2`) whose sampled value is zero. -/
theorem scan_error_of_firstZero (f : ℚ → ℚ) :
    ∀ (xs : List ℚ) (z : ℚ), firstZeroScan f xs = some z →
      scan f xs = Except.error z := by
  intro xs
  induction xs with
  | nil => intro z h; exact absurd h (by simp [firstZeroScan])
  | cons a tail ih =>
    intro z h
    cases tail with
    | nil => exact absurd h (by simp [firstZeroScan])
    | cons b rest =>
      rw [firstZeroScan] at h
      have hdl : (a :: b :: rest).dropLast = a :: (b :: rest).dropLast := by
        simp [List.dropLast]
      rw [hdl] at h
      by_cases hfa : f a = 0
      · rw [List.find?_cons_of_pos _ (by simp [hfa])] at h
        have hz : a = z := by simpa using h
        rw [scan, if_pos hfa, hz]
      · rw [List.find?_cons_of_neg _ (by simp [hfa])] at h
        have hrec := ih z h
        rw [scan, if_neg hfa, hrec]

/-- When no sampled value (on indices `0 .. len-2`) is zero, the scan
collects exactly the sign-changing adjacent pairs, in grid order. -/
theorem scan_ok_of_no_zero (f : ℚ → ℚ) :
    ∀ xs : List ℚ, (∀ x ∈ xs.dropLast, f x ≠ 0) →
      scan f xs
        = Except.ok ((xs.zip xs.tail).filter
            (fun p => decide (f p.1 * f p.2 < 0))) := by
  intro xs
  induction xs with
  | nil => intro _; rfl
  | cons a tail ih =>
    intro hnz
    cases tail with
    | nil => rfl
    | cons b rest =>
      have hdl : (a :: b :: rest).dropLast = a :: (b :: rest).dropLast := by
        simp [List.dropLast]
      have hfa : f a ≠ 0 := hnz a (by rw [hdl]; simp)
      have hrec := ih (fun x hx => hnz x (by rw [hdl]; simp [hx]))
      rw [scan, if_neg hfa, hrec]
      have hzip : (a :: b :: rest).zip (a :: b :: rest).tail
          = (a, b) :: ((b :: rest).zip rest) := rfl
      have htail : (b :: rest).tail = rest := rfl
      rw [hzip, List.filter_cons, htail]
      by_cases hsg : f a * f b < 0
      · simp [hsg]
      · simp [hsg]

/-- `find?` returns the head of the filtered list. -/
theorem find?_some_filter {α : Type} (p : α → Bool) :
    ∀ (l : List α) (x : α), l.find? p = some x →
      ∃ t, l.filter p = x :: t := by
  intro l
  induction l with
  | nil => intro x h; exact absurd h (by simp)
  | cons a as ih =>
    intro x h
    by_cases hpa : p a
    · rw [List.find?_cons_of_pos _ hpa] at h
      have hx : a = x := by simpa using h
      exact ⟨as.filter p, by rw [List.filter_cons, if_pos hpa, hx]⟩
    · rw [List.find?_cons_of_neg _ (by simpa using hpa)] at h
      obtain ⟨t, ht⟩ := ih x h
      exact ⟨t, by rw [List.filter_cons, if_neg (by simpa using hpa), ht]⟩

/-- `find?` returning nothing empties the filter. -/
theorem find?_none_filter {α : Type} (p : α → Bool) (l : List α)
    (h : l.find? p = none) : l.filter p = [] := by
  rw [List.filter_eq_nil_iff]
  intro a ha
  exact List.find?_eq_none.mp h a ha

/-! ### C3 -/

/-- C3 counterexample: on the all-positive sequence `[1e-9]` (with the
default guess, tolerance and budget) the scan grid holds no zero sample
and no sign-changing pair, yet `irr` returns the guess `0.1` rather than
the absent marker: the very first Newton residual `1e-9` is already
below the `1e-8` tolerance. -/
theorem irr_all_positive_returns_guess :
    (∀ x ∈ [(1 / 10 ^ 9 : ℚ)], 0 < x) ∧
    firstZeroScan (irrF [(1 / 10 ^ 9 : ℚ)]) irrGrid = none ∧
    firstBracket (irrF [(1 / 10 ^ 9 : ℚ)]) irrGrid = none ∧
    irr [(1 / 10 ^ 9 : ℚ)] (1 / 10) (1 / 10 ^ 8) 200 = some (1 / 10) := by
  refine ⟨by intro x hx; simp at hx; rw [hx]; norm_num, ?_, ?_, ?_⟩
  · rw [firstZeroScan]
    apply List.find?_eq_none.mpr
    intro x _
    rw [irrF_singleton]
    simp only [decide_eq_true_eq]
    norm_num
  · rw [firstBracket]
    apply List.find?_eq_none.mpr
    intro p _
    rw [irrF_singleton, irrF_singleton]
    simp only [decide_eq_true_eq]
    norm_num
  · with_unfolding_all rfl

/-- C3 (amended): `irr` reports absence of a rate of return for every
uniformly signed cashflow sequence whose period-0 term clears the
tolerance (so that the Newton phase cannot stop on a small residual),
for any guess above the `-0.999999` cutoff; and, in general, whenever
the Newton phase falls through, no scanned value is zero and no adjacent
scan pair brackets a sign change, `irr` returns the absent marker. -/
theorem irr_uniform_sign_no_rate :
    (∀ (cf : List ℚ) (guess tol : ℚ) (maxiter : ℕ),
        (∀ x ∈ cf, 0 < x) → 0 < tol → tol ≤ cf.headD 0 →
        -(999999 / 1000000 : ℚ) < guess →
          irr cf guess tol maxiter = none) ∧
    (∀ (cf : List ℚ) (guess tol : ℚ) (maxiter : ℕ),
        (∀ x ∈ cf, x < 0) → 0 < tol → cf.headD 0 ≤ -tol →
        -(999999 / 1000000 : ℚ) < guess →
          irr cf guess tol maxiter = none) ∧
    (∀ (cf : List ℚ) (guess tol : ℚ) (maxiter : ℕ),
        newtonGo cf tol guess maxiter = none →
        firstZeroScan (irrF cf) irrGrid = none →
        firstBracket (irrF cf) irrGrid = none →
          irr cf guess tol maxiter = none) := by
  refine ⟨?_, ?_, ?_⟩
  · intro cf guess tol maxiter hpos htol hhead hg
    have H : ∀ r : ℚ, -(999999 / 1000000 : ℚ) < r → tol ≤ |irrF cf r| := by
      intro r hr
      have hr1 : (-1 : ℚ) < r := by linarith
      have hb := irrF_ge_head cf r hr1 (fun x hx => (hpos x hx).le)
      exact le_trans (le_trans hhead hb) (le_abs_self _)
    have hn := newtonGo_eq_none cf tol H maxiter guess hg
    have hfpos : ∀ x ∈ irrGrid, 0 < irrF cf x := by
      intro x hx
      have hx1 := irrGrid_gt_neg_one x hx
      have hb := irrF_ge_head cf x hx1 (fun y hy => (hpos y hy).le)
      linarith
    have hs : scan (irrF cf) irrGrid = Except.ok [] := by
      apply scan_eq_ok_nil
      · intro x hx
        exact ne_of_gt (hfpos x hx)
      · refine chain'_of_mem _ (fun x => 0 < irrF cf x) ?_ irrGrid hfpos
        intro a b ha hb
        exact not_lt.mpr (mul_pos ha hb).le
    rw [irr, hn, hs]
  · intro cf guess tol maxiter hneg htol hhead hg
    have H : ∀ r : ℚ, -(999999 / 1000000 : ℚ) < r → tol ≤ |irrF cf r| := by
      intro r hr
      have hr1 : (-1 : ℚ) < r := by linarith
      have hb := irrF_le_head cf r hr1 (fun x hx => (hneg x hx).le)
      have : tol ≤ -irrF cf r := by linarith
      exact le_trans this (neg_le_abs _)
    have hn := newtonGo_eq_none cf tol H maxiter guess hg
    have hfneg : ∀ x ∈ irrGrid, irrF cf x < 0 := by
      intro x hx
      have hx1 := irrGrid_gt_neg_one x hx
      have hb := irrF_le_head cf x hx1 (fun y hy => (hneg y hy).le)
      linarith
    have hs : scan (irrF cf) irrGrid = Except.ok [] := by
      apply scan_eq_ok_nil
      · intro x hx
        exact ne_of_lt (hfneg x hx)
      · refine chain'_of_mem _ (fun x => irrF cf x < 0) ?_ irrGrid hfneg
        intro a b ha hb
        exact not_lt.mpr (mul_pos_of_neg_of_neg ha hb).le
    rw [irr, hn, hs]
  · intro cf guess tol maxiter hn hfz hfb
    have hnozero : ∀ x ∈ irrGrid.dropLast, irrF cf x ≠ 0 := by
      intro x hx
      have hd := List.find?_eq_none.mp hfz x hx
      simpa using hd
    have hs := scan_ok_of_no_zero (irrF cf) irrGrid hnozero
    rw [firstBracket] at hfb
    have hfilter := find?_none_filter _ _ hfb
    rw [irr, hn, hs, hfilter]

/-- C3 witness: the all-positive branch applied to `[1, 2]` with the
default parameters. -/
theorem irr_uniform_sign_no_rate_witness :
    irr [1, 2] (1 / 10) (1 / 10 ^ 8) 200 = none :=
  irr_uniform_sign_no_rate.1 [1, 2] (1 / 10) (1 / 10 ^ 8) 200
    (by intro x hx; simp at hx; rcases hx with rfl | rfl <;> norm_num)
    (by norm_num) (by simp; norm_num) (by norm_num)

/-! ### C4 -/

/-- C4: whenever the Newton phase falls through, the fallback behaves
exactly as specified on the concatenated 200-point and 2000-point grids:
a sampled value of exactly zero returns that grid rate immediately;
otherwise the first (lowest-rate) sign-changing adjacent pair is bisected
for at most 100 iterations, with the midpoint returned early as soon as
its value drops below the tolerance. -/
theorem irr_fallback_first_bracket (cf : List ℚ) (guess tol : ℚ)
    (maxiter : ℕ) (hN : newtonGo cf tol guess maxiter = none) :
    irrGrid = linspace (-(9999 / 10000)) (-(1 / 10)) 200
        ++ linspace (-(1 / 20)) 5 2000 ∧
    (∀ z, firstZeroScan (irrF cf) irrGrid = some z →
        irr cf guess tol maxiter = some z ∧ z ∈ irrGrid) ∧
    (firstZeroScan (irrF cf) irrGrid = none →
      ∀ a b, firstBracket (irrF cf) irrGrid = some (a, b) →
        irr cf guess tol maxiter
          = some (bisect (irrF cf) tol 100 a b (irrF cf a))) ∧
    (∀ (n : ℕ) (a b fa : ℚ), |irrF cf ((a + b) / 2)| < tol →
        bisect (irrF cf) tol (n + 1) a b fa = (a + b) / 2) := by
  refine ⟨rfl, ?_, ?_, ?_⟩
  · intro z hz
    have herr := scan_error_of_firstZero (irrF cf) irrGrid z hz
    exact ⟨by rw [irr, hN, herr], scan_error_mem _ irrGrid z herr⟩
  · intro hfz a b hab
    have hnozero : ∀ x ∈ irrGrid.dropLast, irrF cf x ≠ 0 := by
      intro x hx
      have hd := List.find?_eq_none.mp hfz x hx
      simpa using hd
    have hs := scan_ok_of_no_zero (irrF cf) irrGrid hnozero
    rw [firstBracket] at hab
    obtain ⟨t, ht⟩ := find?_some_filter _ _ _ hab
    rw [irr, hN, hs, ht]
  · intro n a b fa h
    rw [bisect, if_pos h]

/-- C4 witness: a three-period sequence whose objective
`(u - u1)(u - 2)` in `u = 1/(1+r)` has its Newton guess placed exactly
at the vanishing-derivative vertex (so Newton aborts at once) and a root
exactly at the second grid point `g1 = -990401/995000`: the fallback
returns `g1` immediately. -/
theorem irr_fallback_first_bracket_witness :
    irr [1990000 / 4599, -1004198 / 4599, 1] (-995000 / 1004198)
      (1 / 10 ^ 8) 200 = some (-990401 / 995000) := by
  have hN : newtonGo [1990000 / 4599, -1004198 / 4599, 1] (1 / 10 ^ 8)
      (-995000 / 1004198) 200 = none := by with_unfolding_all rfl
  have hz : firstZeroScan (irrF [1990000 / 4599, -1004198 / 4599, 1])
      irrGrid = some (-990401 / 995000) := by with_unfolding_all rfl
  exact ((irr_fallback_first_bracket _ (-995000 / 1004198) (1 / 10 ^ 8)
    200 hN).2.1 _ hz).1

/-! ### C10 -/

/-- C10: from any initial guess above the Newton cutoff, every number
`irr` returns lies strictly above -1: Newton only accepts iterates above
-0.999999, zero short-circuits return grid points, and bisection results
stay inside the interval spanned by the grid `[-0.9999, 5]`. -/
theorem irr_result_gt_neg_one (cf : List ℚ) (guess tol : ℚ) (maxiter : ℕ)
    (x : ℚ) (hg : -(999999 / 1000000 : ℚ) < guess)
    (hx : irr cf guess tol maxiter = some x) : -1 < x := by
  rw [irr] at hx
  cases hn : newtonGo cf tol guess maxiter with
  | some r =>
    rw [hn] at hx
    have hr := newtonGo_some_gt cf tol maxiter guess r hg hn
    have hxr : r = x := by simpa using hx
    rw [← hxr]
    linarith
  | none =>
    rw [hn] at hx
    cases hsc : scan (irrF cf) irrGrid with
    | error z =>
      rw [hsc] at hx
      have hz : z = x := by simpa using hx
      have hzmem := irrGrid_gt_neg_one z (scan_error_mem _ irrGrid z hsc)
      rw [← hz]
      exact hzmem
    | ok brs =>
      rw [hsc] at hx
      cases brs with
      | nil => exact absurd hx (by simp)
      | cons p t =>
        obtain ⟨a, b⟩ := p
        have hmem := scan_ok_mem _ irrGrid _ hsc (a, b) (by simp)
        obtain ⟨ha1, ha2⟩ := irrGrid_mem_bounds a hmem.1
        obtain ⟨hb1, hb2⟩ := irrGrid_mem_bounds b hmem.2
        have hrange := bisect_mem_range (irrF cf) tol
          (-(9999 / 10000)) 5 100 a b (irrF cf a) ha1 ha2 hb1 hb2
        have hbx : bisect (irrF cf) tol 100 a b (irrF cf a) = x := by
          simpa using hx
        rw [← hbx]
        linarith [hrange.1]

/-- C10 witness: on `[-5000, 5000]` from the default guess, `irr`
returns `-1e-16`, which the theorem places above -1. -/
theorem irr_result_gt_neg_one_witness : (-1 : ℚ) < -(1 / 10 ^ 16) :=
  irr_result_gt_neg_one [-5000, 5000] (1 / 10) (1 / 10 ^ 8) 200
    (-(1 / 10 ^ 16)) (by norm_num) (by with_unfolding_all rfl)

/-! ### Percentile interpolation -/

theorem sorted_getD_mono {s : List ℚ} (hs : s.Sorted (· ≤ ·)) {i j : ℕ}
    (hij : i ≤ j) (hj : j < s.length) : s.getD i 0 ≤ s.getD j 0 := by
  have hi : i < s.length := lt_of_le_of_lt hij hj
  rw [List.getD_eq_getElem s 0 hi, List.getD_eq_getElem s 0 hj]
  have hget := @List.Sorted.rel_get_of_le ℚ (· ≤ ·) _ s hs
    ⟨i, hi⟩ ⟨j, hj⟩ (Fin.mk_le_mk.mpr hij)
  simpa using hget

/-- Monotonicity of numpy's linear interpolation between the order
statistics of a sorted sample, as a statement about any monotone index
function. -/
theorem interp_mono (g : ℕ → ℚ) (hg : ∀ i j : ℕ, i ≤ j → g i ≤ g j)
    (h1 h2 : ℚ) (h0 : 0 ≤ h1) (h12 : h1 ≤ h2) :
    g (⌊h1⌋.toNat) + (h1 - (⌊h1⌋ : ℚ)) * (g (⌊h1⌋.toNat + 1) - g (⌊h1⌋.toNat))
      ≤ g (⌊h2⌋.toNat)
        + (h2 - (⌊h2⌋ : ℚ)) * (g (⌊h2⌋.toNat + 1) - g (⌊h2⌋.toNat)) := by
  have hf1 : (0 : ℤ) ≤ ⌊h1⌋ := Int.floor_nonneg.mpr h0
  have hf2 : (0 : ℤ) ≤ ⌊h2⌋ := le_trans hf1 (Int.floor_le_floor h12)
  have hd1 : 0 ≤ g (⌊h1⌋.toNat + 1) - g (⌊h1⌋.toNat) := by
    have := hg (⌊h1⌋.toNat) (⌊h1⌋.toNat + 1) (Nat.le_succ _)
    linarith
  have hd2 : 0 ≤ g (⌊h2⌋.toNat + 1) - g (⌊h2⌋.toNat) := by
    have := hg (⌊h2⌋.toNat) (⌊h2⌋.toNat + 1) (Nat.le_succ _)
    linarith
  have hfr1a : 0 ≤ h1 - (⌊h1⌋ : ℚ) := by
    have := Int.floor_le h1
    linarith
  have hfr1b : h1 - (⌊h1⌋ : ℚ) ≤ 1 := by
    have := Int.lt_floor_add_one h1
    push_cast at this ⊢
    linarith
  have hfr2a : 0 ≤ h2 - (⌊h2⌋ : ℚ) := by
    have := Int.floor_le h2
    linarith
  by_cases hk : ⌊h1⌋ = ⌊h2⌋
  · rw [hk]
    have hfr : h1 - (⌊h2⌋ : ℚ) ≤ h2 - (⌊h2⌋ : ℚ) := by linarith
    have hd2' : 0 ≤ g (⌊h2⌋.toNat + 1) - g (⌊h2⌋.toNat) := hd2
    have := mul_le_mul_of_nonneg_right hfr hd2'
    linarith
  · have hlt : ⌊h1⌋ < ⌊h2⌋ := lt_of_le_of_ne (Int.floor_le_floor h12) hk
    have hk12 : ⌊h1⌋.toNat + 1 ≤ ⌊h2⌋.toNat := by omega
    have hstep1 : g (⌊h1⌋.toNat)
        + (h1 - (⌊h1⌋ : ℚ)) * (g (⌊h1⌋.toNat + 1) - g (⌊h1⌋.toNat))
        ≤ g (⌊h1⌋.toNat + 1) := by
      have := mul_le_mul_of_nonneg_right hfr1b hd1
      linarith
    have hstep2 : g (⌊h1⌋.toNat + 1) ≤ g (⌊h2⌋.toNat) := hg _ _ hk12
    have hstep3 : g (⌊h2⌋.toNat) ≤ g (⌊h2⌋.toNat)
        + (h2 - (⌊h2⌋ : ℚ)) * (g (⌊h2⌋.toNat + 1) - g (⌊h2⌋.toNat)) := by
      have := mul_nonneg hfr2a hd2
      linarith
    linarith

/-- `np.percentile` is monotone in the percentile rank over one sample
set. -/
theorem pct_mono (l : List ℚ) (hl : l ≠ []) (q1 q2 : ℚ) (h0 : 0 ≤ q1)
    (h12 : q1 ≤ q2) : pct l q1 ≤ pct l q2 := by
  have hlen : (List.insertionSort (· ≤ ·) l).length = l.length :=
    (List.perm_insertionSort _ l).length_eq
  have hs : (List.insertionSort (· ≤ ·) l).Sorted (· ≤ ·) :=
    List.sorted_insertionSort _ l
  have hn1 : 1 ≤ l.length := by
    cases l with
    | nil => exact absurd rfl hl
    | cons a t => simp
  have hg : ∀ i j : ℕ, i ≤ j →
      (List.insertionSort (· ≤ ·) l).getD (min i (l.length - 1)) 0
        ≤ (List.insertionSort (· ≤ ·) l).getD (min j (l.length - 1)) 0 := by
    intro i j hij
    apply sorted_getD_mono hs (min_le_min hij le_rfl)
    rw [hlen]
    omega
  have hq0 : (0 : ℚ) ≤ ((l.length : ℚ) - 1) * q1 / 100 := by
    have : (1 : ℚ) ≤ (l.length : ℚ) := by exact_mod_cast hn1
    apply div_nonneg (mul_nonneg (by linarith) h0) (by norm_num)
  have hqle : ((l.length : ℚ) - 1) * q1 / 100
      ≤ ((l.length : ℚ) - 1) * q2 / 100 := by
    have h1 : (1 : ℚ) ≤ (l.length : ℚ) := by exact_mod_cast hn1
    apply div_le_div_of_nonneg_right ?_ (by norm_num)
    exact mul_le_mul_of_nonneg_left h12 (by linarith)
  exact interp_mono _ hg _ _ hq0 hqle

/-! ### C6 -/

/-- C6: every Risk Distribution Summary the simulator returns has
monotonically non-decreasing percentiles, for every cashflow sequence,
rate, trial count, sigma, seed and generator state: all five percentiles
are interpolations over the same sorted sample set at increasing ranks. -/
theorem monte_carlo_percentiles_monotone (cf : List ℚ) (rate : ℚ)
    (n : ℤ) (σ : ℚ) (seed : Option ℤ) (st st' : RngState) (res : MCResult)
    (h : monte_carlo_npv cf rate n σ seed st = some (res, st')) :
    res.p5 ≤ res.p25 ∧ res.p25 ≤ res.p50 ∧ res.p50 ≤ res.p75 ∧
      res.p75 ≤ res.p95 := by
  rw [monte_carlo_npv.eq_def] at h
  cases hml : mcLoop cf rate σ n.toNat (mcSeedState seed st) with
  | none => simp [hml] at h
  | some p =>
    obtain ⟨sims, st1⟩ := p
    rw [hml] at h
    simp only [] at h
    by_cases hne : sims.isEmpty = true
    · rw [if_pos hne] at h
      simp at h
    · rw [if_neg hne] at h
      simp only [Option.some.injEq, Prod.mk.injEq] at h
      obtain ⟨hres, _⟩ := h
      rw [← hres]
      have hnil : sims ≠ [] := by
        intro hcon
        rw [hcon] at hne
        simp at hne
      refine ⟨?_, ?_, ?_, ?_⟩ <;>
        exact pct_mono sims hnil _ _ (by norm_num) (by norm_num)

/-- C6 witness: two trials over `[-100, 50]` with sigma 0 produce the
constant sample list `[-50, -50]`; all percentiles coincide. -/
theorem monte_carlo_percentiles_monotone_witness :
    ((-50 : ℚ) ≤ -50) ∧ ((-50 : ℚ) ≤ -50) ∧ ((-50 : ℚ) ≤ -50) ∧
      ((-50 : ℚ) ≤ -50) :=
  monte_carlo_percentiles_monotone [-100, 50] 0 2 0 (some 0)
    { stream := fun _ => 0, ptr := 0 }
    { stream := normalsFromSeed 0, ptr := 2 }
    ⟨2, -50, 0, -50, -50, -50, -50, -50, [-50, -50]⟩
    (by with_unfolding_all rfl)

/-! ### C7 -/

/-- C7: with a supplied (non-`None`) seed, the Risk Simulator's result —
the full summary, samples included — does not depend on the incoming
global generator state: the call reseeds the generator from the seed
alone, so two calls with identical arguments yield identical summaries.
The same holds for `evaluate_project` with risk simulation enabled. -/
theorem monte_carlo_seeded_deterministic :
    (∀ (cf : List ℚ) (rate : ℚ) (n : ℤ) (σ : ℚ) (s : ℤ)
        (st1 st2 : RngState),
      Option.map Prod.fst (monte_carlo_npv cf rate n σ (some s) st1)
        = Option.map Prod.fst (monte_carlo_npv cf rate n σ (some s) st2)) ∧
    (∀ (cf : List ℚ) (tmar : ℚ) (n : ℤ) (σ : ℚ) (s : ℤ)
        (st1 st2 : RngState),
      Option.map Prod.fst (evaluate_project cf tmar true n σ (some s) st1)
        = Option.map Prod.fst (evaluate_project cf tmar true n σ (some s) st2)) :=
  ⟨fun _ _ _ _ _ _ _ => rfl, fun _ _ _ _ _ _ _ => rfl⟩

/-! ### C8 -/

/-- One-period sequences pass through the trial loop unshocked: every
trial reproduces the outlay and consumes no randomness. -/
theorem mcLoop_singleton (c rate σ : ℚ) :
    ∀ (k : ℕ) (st : RngState),
      mcLoop [c] rate σ k st = some (List.replicate k c, st) := by
  intro k
  induction k with
  | zero => intro st; rfl
  | succ k ih =>
    intro st
    rw [mcLoop]
    have hlen : ¬ ([c].length > 1) := by simp
    rw [if_neg hlen]
    simp only [ih]
    have hsc : List.zipWith (· * ·) [c] (List.replicate [c].length 1)
        = [c] := by simp
    rw [hsc, npv_singleton]
    rfl

/-- C8 counterexample: on the trial count 0 (an admissible `n_sim` under
the claim's "every trial count"), the simulator does not return 0
collected values — it fails (numpy's percentile of an empty sample array
raises), modelled as `none`. -/
theorem monte_carlo_single_outlay_zero_trials_fails :
    monte_carlo_npv [-5000] (1 / 10) 0 (15 / 100) (some 7)
      { stream := fun _ => 0, ptr := 0 } = none := by
  with_unfolding_all rfl

/-- C8 (amended): in every trial the period-0 cashflow is multiplied by
the fixed shock 1 (only later periods receive random shocks), and for
every one-period sequence, rate, sigma (even negative — the draw is
skipped), seed and trial count `n_sim ≥ 1`, the simulator returns
`n_sim` collected values all equal to the outlay. -/
theorem monte_carlo_period0_unshocked :
    (∀ (cf : List ℚ) (rate σ : ℚ) (k : ℕ) (st st' : RngState)
        (sims : List ℚ),
      mcLoop cf rate σ k st = some (sims, st') →
      ∀ x ∈ sims, ∃ zs : List ℚ,
        x = npv rate (List.zipWith (· * ·) cf ((1 : ℚ) :: zs))) ∧
    (∀ (c rate σ : ℚ) (n : ℤ) (seed : Option ℤ) (st : RngState),
      1 ≤ n →
      ∃ (res : MCResult) (st' : RngState),
        monte_carlo_npv [c] rate n σ seed st = some (res, st') ∧
        res.samples = List.replicate n.toNat c ∧
        ∀ x ∈ res.samples, x = c) := by
  constructor
  · intro cf rate σ k
    induction k with
    | zero =>
      intro st st' sims h x hx
      rw [mcLoop] at h
      simp only [Option.some.injEq, Prod.mk.injEq] at h
      obtain ⟨hsims, _⟩ := h
      rw [← hsims] at hx
      simp at hx
    | succ k ih =>
      intro st st' sims h x hx
      rw [mcLoop] at h
      by_cases hlen : cf.length > 1
      · rw [if_pos hlen] at h
        rw [drawNormals] at h
        by_cases hσ : σ < 0
        · rw [if_pos hσ] at h
          exact absurd h (by simp)
        · rw [if_neg hσ] at h
          simp only [] at h
          split at h
          · exact absurd h (by simp)
          · rename_i rest st2 hrec
            simp only [Option.some.injEq, Prod.mk.injEq] at h
            obtain ⟨hsims, _⟩ := h
            rw [← hsims] at hx
            rcases List.mem_cons.mp hx with hx1 | hx2
            · exact ⟨_, hx1⟩
            · exact ih _ _ _ hrec x hx2
      · rw [if_neg hlen] at h
        simp only [] at h
        split at h
        · exact absurd h (by simp)
        · rename_i rest st2 hrec
          simp only [Option.some.injEq, Prod.mk.injEq] at h
          obtain ⟨hsims, _⟩ := h
          rw [← hsims] at hx
          rcases List.mem_cons.mp hx with hx1 | hx2
          · -- degenerate lengths 0 and 1: the all-ones shock vector acts
            -- exactly like the padded vector `1 :: zs`
            refine ⟨[], ?_⟩
            cases cf with
            | nil => simpa using hx1
            | cons a t =>
              cases t with
              | nil => simpa using hx1
              | cons b u => simp at hlen
          · exact ih _ _ _ hrec x hx2
  · intro c rate σ n seed st hn
    have hloop := mcLoop_singleton c rate σ n.toNat (mcSeedState seed st)
    have hne : ¬ (List.replicate n.toNat c).isEmpty = true := by
      have : n.toNat ≠ 0 := by omega
      cases hk : n.toNat with
      | zero => exact absurd hk this
      | succ m => simp [List.replicate]
    obtain ⟨res, st', hmc, hsamp⟩ :
        ∃ (res : MCResult) (st' : RngState),
          monte_carlo_npv [c] rate n σ seed st = some (res, st') ∧
          res.samples = List.replicate n.toNat c := by
      rw [monte_carlo_npv.eq_def]
      simp only [hloop]
      rw [if_neg hne]
      exact ⟨_, _, rfl, rfl⟩
    exact ⟨res, st', hmc, hsamp,
      fun x hx => List.eq_of_mem_replicate (hsamp ▸ hx)⟩

/-- C8 witness: three trials on the one-period sequence `[-5000]` with a
negative sigma (the draw is never taken) return three copies of the
outlay. -/
theorem monte_carlo_period0_unshocked_witness :
    ∃ (res : MCResult) (st' : RngState),
      monte_carlo_npv [-5000] (1 / 10) 3 (-1) none
          { stream := fun _ => 0, ptr := 0 } = some (res, st') ∧
      res.samples = List.replicate (3 : ℤ).toNat (-5000) ∧
      ∀ x ∈ res.samples, x = -5000 :=
  monte_carlo_period0_unshocked.2 (-5000) (1 / 10) (-1) 3 none
    { stream := fun _ => 0, ptr := 0 } (by norm_num)

/-! ### C9: the multicriteria ranking -/

/-- Spec-side description of min-max normalization of one metric value
against its column: 0 for every entry when the column is constant,
otherwise `(v - min) / (max - min)`. -/
def normSpec (vs : List ℚ) (v : ℚ) : ℚ :=
  if maxOfList vs = minOfList vs then 0
  else (v - minOfList vs) / (maxOfList vs - minOfList vs)

theorem foldl_max_le_init (xs : List ℚ) : ∀ a : ℚ, a ≤ xs.foldl max a := by
  induction xs with
  | nil => intro a; exact le_rfl
  | cons x t ih =>
    intro a
    exact le_trans (le_max_left a x) (ih (max a x))

theorem mem_le_foldl_max (xs : List ℚ) :
    ∀ a : ℚ, ∀ v ∈ xs, v ≤ xs.foldl max a := by
  induction xs with
  | nil => intro a v hv; simp at hv
  | cons x t ih =>
    intro a v hv
    rcases List.mem_cons.mp hv with rfl | hv'
    · exact le_trans (le_max_right a v) (foldl_max_le_init t (max a v))
    · exact ih (max a x) v hv'

theorem foldl_min_ge_init (xs : List ℚ) : ∀ a : ℚ, xs.foldl min a ≤ a := by
  induction xs with
  | nil => intro a; exact le_rfl
  | cons x t ih =>
    intro a
    exact le_trans (ih (min a x)) (min_le_left a x)

theorem foldl_min_le_mem (xs : List ℚ) :
    ∀ a : ℚ, ∀ v ∈ xs, xs.foldl min a ≤ v := by
  induction xs with
  | nil => intro a v hv; simp at hv
  | cons x t ih =>
    intro a v hv
    rcases List.mem_cons.mp hv with rfl | hv'
    · exact le_trans (foldl_min_ge_init t (min a v)) (min_le_right a v)
    · exact ih (min a x) v hv'

theorem mem_le_maxOfList (vs : List ℚ) (v : ℚ) (hv : v ∈ vs) :
    v ≤ maxOfList vs := by
  cases vs with
  | nil => simp at hv
  | cons x t =>
    rcases List.mem_cons.mp hv with rfl | hv'
    · exact foldl_max_le_init t v
    · exact mem_le_foldl_max t x v hv'

theorem minOfList_le_mem (vs : List ℚ) (v : ℚ) (hv : v ∈ vs) :
    minOfList vs ≤ v := by
  cases vs with
  | nil => simp at hv
  | cons x t =>
    rcases List.mem_cons.mp hv with rfl | hv'
    · exact foldl_min_ge_init t v
    · exact foldl_min_le_mem t x v hv'

theorem safe_normalize_eq_map_normSpec (vs : List ℚ) :
    safe_normalize vs = vs.map (normSpec vs) := by
  rw [safe_normalize]
  by_cases h : maxOfList vs = minOfList vs
  · rw [if_pos h]
    exact List.map_congr_left (fun x _ => by rw [normSpec, if_pos h])
  · rw [if_neg h]
    exact List.map_congr_left (fun x _ => by rw [normSpec, if_neg h])

theorem normSpec_mem_unit (vs : List ℚ) (v : ℚ) (hv : v ∈ vs) :
    0 ≤ normSpec vs v ∧ normSpec vs v ≤ 1 := by
  rw [normSpec]
  by_cases h : maxOfList vs = minOfList vs
  · rw [if_pos h]
    norm_num
  · rw [if_neg h]
    have hub := mem_le_maxOfList vs v hv
    have hlb := minOfList_le_mem vs v hv
    have hlt : minOfList vs < maxOfList vs :=
      lt_of_le_of_ne (le_trans hlb hub) (Ne.symm h)
    constructor
    · exact div_nonneg (by linarith) (by linarith)
    · rw [div_le_one (by linarith)]
      linarith

/-- Inserting an entry with Mathlib's `orderedInsert` under the
descending score order keeps each equal-score fiber intact: every entry
skipped before the insertion point has a strictly larger score. -/
theorem filter_score_orderedInsert (s : ℚ) (x : ScoredEntry) :
    ∀ l : List ScoredEntry,
      (List.orderedInsert scoreGE x l).filter (fun e => decide (e.score = s))
        = ((x :: l).filter (fun e => decide (e.score = s))) := by
  intro l
  induction l with
  | nil => rfl
  | cons y ys ih =>
    rw [List.orderedInsert]
    by_cases hr : scoreGE x y
    · rw [if_pos hr]
    · rw [if_neg hr]
      have hyx : x.score < y.score := by
        by_contra hcon
        exact hr (not_lt.mp hcon)
      by_cases hx : x.score = s
      · have hy : ¬ (y.score = s) := by
          intro hys
          rw [hys, hx] at hyx
          exact lt_irrefl s hyx
        simp [List.filter_cons, hx, hy, ih]
      · by_cases hy : y.score = s
        · simp [List.filter_cons, hy, hx, ih]
        · simp [List.filter_cons, hy, hx, ih]

/-- Python's stable descending sort preserves each equal-score fiber of
the input order. -/
theorem filter_score_insertionSort (s : ℚ) :
    ∀ l : List ScoredEntry,
      (List.insertionSort scoreGE l).filter (fun e => decide (e.score = s))
        = l.filter (fun e => decide (e.score = s)) := by
  intro l
  induction l with
  | nil => rfl
  | cons x xs ih =>
    rw [List.insertionSort, filter_score_orderedInsert s x _]
    simp only [List.filter_cons, ih]

/-- C9 counterexample: on the empty collection the ranker returns no
ranking at all — `np.array([]).max()` raises `ValueError` (modelled as
`none`) — rather than the sorted entry list the claim promises for
every collection. -/
theorem compare_projects_empty_fails :
    compare_projects [] (1 / 2, 3 / 10, 1 / 5) = none := rfl

/-- C9 (amended): for every nonempty collection and every weight triple,
the ranking is a permutation of the scored entries, sorted by score
descending, preserving the input order inside every equal-score fiber;
each scored entry carries its absent-as-0 metrics and the weighted sum
of the three independently min-max normalized metrics (each normalized
value lies in `[0, 1]`, and is 0 for all entries when a column is
constant). -/
theorem compare_projects_ranking :
    (∀ (P : List ProjInput) (w : ℚ × ℚ × ℚ) (out : List ScoredEntry),
        compare_projects P w = some out →
        out.Perm (scoredEntries P w) ∧
        List.Sorted scoreGE out ∧
        ∀ s : ℚ, out.filter (fun e => decide (e.score = s))
          = (scoredEntries P w).filter (fun e => decide (e.score = s))) ∧
    (∀ (P : List ProjInput) (w : ℚ × ℚ × ℚ) (i : ℕ), i < P.length →
        (scoredEntries P w).getD i default =
          { name := ((P.getD i default).name).getD ("proj_" ++ toString i)
            van := orZero (P.getD i default).van
            tir := orZero (P.getD i default).tir
            b_c := orZero (P.getD i default).b_c
            score :=
              w.1 * normSpec (P.map (fun p => orZero p.van))
                  (orZero (P.getD i default).van)
                + w.2.1 * normSpec (P.map (fun p => orZero p.tir))
                  (orZero (P.getD i default).tir)
                + w.2.2 * normSpec (P.map (fun p => orZero p.b_c))
                  (orZero (P.getD i default).b_c) }) ∧
    (∀ (vs : List ℚ) (v : ℚ), v ∈ vs →
        0 ≤ normSpec vs v ∧ normSpec vs v ≤ 1) ∧
    (∀ (vs : List ℚ) (v : ℚ), maxOfList vs = minOfList vs →
        normSpec vs v = 0) ∧
    (∀ vs : List ℚ, safe_normalize vs = vs.map (normSpec vs)) := by
  refine ⟨?_, ?_, normSpec_mem_unit, ?_, safe_normalize_eq_map_normSpec⟩
  · intro P w out h
    cases P with
    | nil => simp [compare_projects] at h
    | cons p ps =>
      have h' : some (List.insertionSort scoreGE (scoredEntries (p :: ps) w))
          = some out := h
      have hout : List.insertionSort scoreGE (scoredEntries (p :: ps) w)
          = out := by simpa using h'
      rw [← hout]
      exact ⟨List.perm_insertionSort _ _, List.sorted_insertionSort _ _,
        fun s => filter_score_insertionSort s _⟩
  · intro P w i hi
    have hlen : (scoredEntries P w).length = P.length := by
      rw [scoredEntries.eq_def]
      simp
    have hi' : i < (scoredEntries P w).length := by rw [hlen]; exact hi
    rw [List.getD_eq_getElem _ default hi']
    simp only [scoredEntries.eq_def, List.getElem_map, List.getElem_range]
    have hv : ∀ f : ProjInput → ℚ,
        (P.map f).getD i 0 = f (P.getD i default) := by
      intro f
      have h1 : i < (P.map f).length := by
        rw [List.length_map]
        exact hi
      rw [List.getD_eq_getElem _ 0 h1, List.getD_eq_getElem _ default hi,
        List.getElem_map]
    have hn : ∀ f : ProjInput → ℚ,
        (safe_normalize (P.map f)).getD i 0
          = normSpec (P.map f) (f (P.getD i default)) := by
      intro f
      have h1 : i < (safe_normalize (P.map f)).length := by
        rw [safe_normalize_eq_map_normSpec, List.length_map, List.length_map]
        exact hi
      rw [List.getD_eq_getElem _ 0 h1]
      simp only [safe_normalize_eq_map_normSpec, List.getElem_map]
      rw [List.getD_eq_getElem P default hi]
    rw [hv, hv, hv, hn, hn, hn]
  · intro vs v h
    rw [normSpec, if_pos h]

/-- C9 witness: the ranking of the spec's scenario E — A (1000, 0.20,
1.5) versus B (500, 0.15, 1.2) with weights (0.5, 0.3, 0.2) — is a
permutation of its scored entries, sorted descending, with A first at
score 1 and B second at score 0. -/
theorem compare_projects_ranking_witness :
    List.Perm
      [({ name := "A", van := 1000, tir := 1 / 5, b_c := 3 / 2,
          score := 1 } : ScoredEntry),
        { name := "B", van := 500, tir := 3 / 20, b_c := 6 / 5, score := 0 }]
      (scoredEntries
        [{ name := some "A", van := some 1000, tir := some (1 / 5),
           b_c := some (3 / 2) },
         { name := some "B", van := some 500, tir := some (3 / 20),
           b_c := some (6 / 5) }]
        (1 / 2, 3 / 10, 1 / 5)) :=
  (compare_projects_ranking.1
    [{ name := some "A", van := some 1000, tir := some (1 / 5),
       b_c := some (3 / 2) },
     { name := some "B", van := some 500, tir := some (3 / 20),
       b_c := some (6 / 5) }]
    (1 / 2, 3 / 10, 1 / 5)
    [{ name := "A", van := 1000, tir := 1 / 5, b_c := 3 / 2, score := 1 },
     { name := "B", van := 500, tir := 3 / 20, b_c := 6 / 5, score := 0 }]
    (by with_unfolding_all rfl)).1

end FinCore
